import Mathlib

/-!
Shallow embedding of the command tokenizer and shell-substitution resolver
of `src/internal/ui/prompt/tokenize.go`, together with the quote-aware
tokenizer specified in §4.3 of the design document (whose implementation is
exercised by `Test_tokenizeWithQuotes` but is not among the provided source
files).

Go strings are modelled as `String` / `List Char` (Go iterates the command as
`[]rune`, i.e. Unicode code points, which matches Lean's `Char`).  Go's
multiple-return `(T, error)` convention is modelled as a pair
`T × Option ResolveError`; the `error == nil` case is `none`.
-/

/-- The opening curly brace character (code point 123). -/
def lbrace : Char := Char.ofNat 123

/-- The closing curly brace character (code point 125). -/
def rbrace : Char := Char.ofNat 125

/-- The double-quote character (code point 34). -/
def dquote : Char := Char.ofNat 34

/-- The single-quote character (code point 39). -/
def squote : Char := Char.ofNat 39

/-- The backslash character (code point 92). -/
def bslash : Char := Char.ofNat 92

/-- Go's `unicode.IsSpace`: the Unicode White_Space property, which is what
`strings.Fields` splits on. -/
def isSpaceGo (c : Char) : Bool :=
  let n := c.toNat
  n == 9 || n == 10 || n == 11 || n == 12 || n == 13 || n == 32 ||
    n == 0x85 || n == 0xA0 || n == 0x1680 ||
    (0x2000 ≤ n && n ≤ 0x200A) ||
    n == 0x2028 || n == 0x2029 || n == 0x202F || n == 0x205F || n == 0x3000

/-- The scanning loop of `findEndingParenthesis`, expressed structurally on
the suffix of the rune slice starting at `openIdx + 1`.  It returns the
offset, within that suffix, at which the Go loop's index `i` comes to rest:
the loop increments the depth counter at `openC`, decrements it at `closeC`,
and stops the instant the counter reaches 0 (leaving `i` on that character);
running off the end leaves `i` at the length of the suffix. -/
def findEndLoopList (openC closeC : Char) : List Char → Nat → Nat
  | [], _ => 0
  | x :: xs, cnt =>
    if cnt = 0 then 0
    else
      let cnt' := if x = openC then cnt + 1 else if x = closeC then cnt - 1 else cnt
      if cnt' = 0 then 0 else 1 + findEndLoopList openC closeC xs cnt'

/-- `findEndingParenthesis` of `tokenize.go`: precondition check returning the
`-1` sentinel, then the depth-counting scan from `openIdx + 1` with the
counter starting at 1.  A scan that exhausts the slice returns `r.length`
(the "unterminated" sentinel). -/
def findEndingParenthesis (r : List Char) (openIdx : Int) (openC closeC : Char) : Int :=
  if openIdx < 0 ∨ (r.length : Int) ≤ openIdx ∨ r.get? openIdx.toNat ≠ some openC then -1
  else openIdx + 1 + (findEndLoopList openC closeC (r.drop (openIdx.toNat + 1)) 1 : Int)

/-- Cause carried by the `error` returned by the shell executor
(`utils.ExecuteCommandInShell`): either the context deadline was exceeded
(timeout) or some other launch-failure cause. -/
inductive ExecCause where
  | deadlineExceeded
  | other (msg : String)
deriving DecidableEq, Repr

/-- Result triple of `utils.ExecuteCommandInShell`: exit code (`-1` is the
"could not be launched" sentinel), captured stdout, and the Go `error`
(`none` models `nil`). -/
structure ExecResult where
  retCode : Int
  output : String
  err : Option ExecCause
deriving DecidableEq, Repr

/-- The errors `resolveShellSubstitution` can return, one constructor per
`return "", err` site of the Go code. -/
inductive ResolveError where
  /-- `fmt.Errorf("unexpected error in tokenization")` (the `end == -1` branches). -/
  | unexpectedTokenization
  /-- `curlyBracketParMatchError()`: a `$` + curly-brace span was never terminated. -/
  | curlyBracketParMatch
  /-- `bracketParMatchError()`: a `$(` span was never terminated. -/
  | bracketParMatch
  /-- `envVarNotFoundError{varName: ...}`. -/
  | envVarNotFound (varName : String)
  /-- `fmt.Errorf("could not execute shell substitution command : %s : %w", subCmd, err)`;
  carries the sub-command and the wrapped cause from the executor. -/
  | shellExec (subCmd : String) (cause : Option ExecCause)
deriving DecidableEq, Repr

/-- The `for i < len(cmdRunes)` loop of `resolveShellSubstitution`, expressed
structurally on the unprocessed suffix of the rune slice (the loop never
looks at an index left of `i`, so advancing `i` is dropping a prefix).
`env` models `os.LookupEnv` and `exec` models `utils.ExecuteCommandInShell`
(arguments: timeout, cwd, command).  `acc` is the `strings.Builder`. -/
def resolveLoop (env : String → Option String) (exec : Nat → String → String → ExecResult)
    (timeout : Nat) (cwd : String) : List Char → String → String × Option ResolveError
  | [], acc => (acc, none)
  | [c], acc =>
    -- `i+1 < len(cmdRunes)` fails: copy the rune verbatim.
    (acc.push c, none)
  | c :: d :: ds, acc =>
    if c = '$' then
      if d = lbrace then
        let l := c :: d :: ds
        let e := findEndingParenthesis l 1 lbrace rbrace
        if e = -1 then ("", some .unexpectedTokenization)
        else if e = (l.length : Int) then ("", some .curlyBracketParMatch)
        else
          let envVarName := String.mk ((l.drop 2).take (e.toNat - 2))
          match env envVarName with
          | none => ("", some (.envVarNotFound envVarName))
          | some value => resolveLoop env exec timeout cwd (l.drop (e.toNat + 1)) (acc ++ value)
      else if d = '(' then
        let l := c :: d :: ds
        let e := findEndingParenthesis l 1 '(' ')'
        if e = -1 then ("", some .unexpectedTokenization)
        else if e = (l.length : Int) then ("", some .bracketParMatch)
        else
          let subCmd := String.mk ((l.drop 2).take (e.toNat - 2))
          let res := exec timeout cwd subCmd
          if res.retCode = -1 then ("", some (.shellExec subCmd res.err))
          else resolveLoop env exec timeout cwd (l.drop (e.toNat + 1)) (acc ++ res.output)
      else
        -- `$` followed by anything else: copy the `$` verbatim and advance by one.
        resolveLoop env exec timeout cwd (d :: ds) (acc.push c)
    else
      resolveLoop env exec timeout cwd (d :: ds) (acc.push c)
termination_by l _ => l.length
decreasing_by
  all_goals simp_all [List.length_drop]
  all_goals omega

/-- `resolveShellSubstitution(subCmdTimeout, command, cwdLocation)`: run the
scan over the command's runes with an empty builder.  On error every Go
return site yields the empty string. -/
def resolveShellSubstitution (env : String → Option String)
    (exec : Nat → String → String → ExecResult) (subCmdTimeout : Nat)
    (command : String) (cwdLocation : String) : String × Option ResolveError :=
  resolveLoop env exec subCmdTimeout cwdLocation command.data ""

/-- Core of Go's `strings.Fields`, as a right fold over the runes: the state
is the current (not yet closed) run of non-whitespace characters and the
list of completed fields to the right. -/
def fieldsCore (l : List Char) : List Char × List String :=
  l.foldr
    (fun c st =>
      if isSpaceGo c then
        match st with
        | ([], toks) => ([], toks)
        | (cur, toks) => ([], String.mk cur :: toks)
      else (c :: st.1, st.2))
    ([], [])

/-- Go's `strings.Fields`: split around maximal runs of White_Space
characters, producing no empty fields. -/
def fields (s : String) : List String :=
  match fieldsCore s.data with
  | ([], toks) => toks
  | (cur, toks) => String.mk cur :: toks

/-- `tokenizePromptCommand(command, cwdLocation)`: resolve substitutions, then
split with `strings.Fields`.  The `nil` token slice returned alongside an
error is modelled as `none`; a successful (possibly empty) slice as `some`. -/
def tokenizePromptCommand (env : String → Option String)
    (exec : Nat → String → String → ExecResult) (timeout : Nat)
    (command : String) (cwdLocation : String) :
    Option (List String) × Option ResolveError :=
  match resolveShellSubstitution env exec timeout command cwdLocation with
  | (_, some e) => (none, some e)
  | (s, none) => (some (fields s), none)

/-- Tokenizer mode of §4.3: outside any quote, inside single quotes, or
inside double quotes. -/
inductive QuoteMode where
  | bare
  | single
  | double
deriving DecidableEq, Repr

/-- Errors of the quote-aware tokenizer (§4.3 / §7). -/
inductive QuoteError where
  | unterminatedQuote
  | danglingEscape
deriving DecidableEq, Repr

/-- Modelled from the spec: the character-by-character state machine of the
QuotedTokenizer (§4.3), whose implementation (`tokenizeWithQuotes`) is not
among the provided source files — only its tests are.  State: current mode,
whether a token is open (`opened`), the token accumulated so far (`cur`) and
the completed tokens (`acc`).  Closing a quoted segment completes the token;
whitespace in bare mode completes an open token; escapes follow §4.3
verbatim (bare: next char literal, dangling is an error; single: only
backslash-singlequote is unescaped; double: backslash-doublequote and
backslash-backslash are unescaped, any other escape keeps both characters,
dangling is an error). -/
def tokenizeQuotesLoop : QuoteMode → Bool → String → List String →
    List Char → Option (List String) × Option QuoteError
  | .bare, opened, cur, acc, [] =>
    (some (if opened then acc ++ [cur] else acc), none)
  | .single, _, _, _, [] => (none, some .unterminatedQuote)
  | .double, _, _, _, [] => (none, some .unterminatedQuote)
  | .bare, opened, cur, acc, c :: cs =>
    if isSpaceGo c then
      tokenizeQuotesLoop .bare false "" (if opened then acc ++ [cur] else acc) cs
    else if c = squote then tokenizeQuotesLoop .single true cur acc cs
    else if c = dquote then tokenizeQuotesLoop .double true cur acc cs
    else if c = bslash then
      match cs with
      | [] => (none, some .danglingEscape)
      | d :: ds => tokenizeQuotesLoop .bare true (cur.push d) acc ds
    else tokenizeQuotesLoop .bare true (cur.push c) acc cs
  | .single, _, cur, acc, c :: cs =>
    if c = squote then tokenizeQuotesLoop .bare false "" (acc ++ [cur]) cs
    else if c = bslash then
      match cs with
      | d :: ds =>
        if d = squote then tokenizeQuotesLoop .single true (cur.push squote) acc ds
        else tokenizeQuotesLoop .single true (cur.push bslash) acc (d :: ds)
      | [] => tokenizeQuotesLoop .single true (cur.push bslash) acc []
    else tokenizeQuotesLoop .single true (cur.push c) acc cs
  | .double, _, cur, acc, c :: cs =>
    if c = dquote then tokenizeQuotesLoop .bare false "" (acc ++ [cur]) cs
    else if c = bslash then
      match cs with
      | [] => (none, some .danglingEscape)
      | d :: ds =>
        if d = dquote then tokenizeQuotesLoop .double true (cur.push dquote) acc ds
        else if d = bslash then tokenizeQuotesLoop .double true (cur.push bslash) acc ds
        else tokenizeQuotesLoop .double true ((cur.push bslash).push d) acc ds
    else tokenizeQuotesLoop .double true (cur.push c) acc cs

/-- Modelled from the spec: `tokenizeWithQuotes` (§4.3), the quote-aware
tokenizer.  Returns the ordered token list on success; on any error it
returns no tokens (`none`, Go's `nil`) and the error. -/
def tokenizeWithQuotes (command : String) : Option (List String) × Option QuoteError :=
  tokenizeQuotesLoop .bare false "" [] command.data

/-- Depth of the bracket scan just after processing index `k` of the suffix
`l` (positions `0..k`), starting from counter value `cnt`: each occurrence of
the opening character raises it, each occurrence of the closing character
lowers it. -/
def depthAfter (openC closeC : Char) (l : List Char) (cnt : Nat) (k : Nat) : Int :=
  (cnt : Int) + ((l.take (k + 1)).count openC : Int) - ((l.take (k + 1)).count closeC : Int)

/-- Nesting depth after scanning positions `openIdx + 1 .. j` of `r`, starting
at depth 1 (the opening bracket at `openIdx` itself). -/
def bracketDepth (r : List Char) (openC closeC : Char) (openIdx j : Nat) : Int :=
  1 + (((r.take (j + 1)).drop (openIdx + 1)).count openC : Int)
    - (((r.take (j + 1)).drop (openIdx + 1)).count closeC : Int)

/-- The scan loop stops at an offset no greater than the suffix length, and
when it stops strictly inside the suffix, the character there is the closing
character. -/
theorem findEndLoopList_le (openC closeC : Char) (l : List Char) :
    ∀ (cnt : Nat), cnt ≠ 0 →
      findEndLoopList openC closeC l cnt ≤ l.length ∧
        (findEndLoopList openC closeC l cnt < l.length →
          l.get? (findEndLoopList openC closeC l cnt) = some closeC) := by
  induction l with
  | nil => intro cnt h; simp [findEndLoopList]
  | cons x xs ih =>
    intro cnt h
    by_cases hx : x = openC
    · have h' : cnt + 1 ≠ 0 := by omega
      obtain ⟨ih1, ih2⟩ := ih (cnt + 1) h'
      simp only [findEndLoopList, if_neg h, hx, eq_self_iff_true, if_true, if_neg h']
      refine ⟨by simp only [List.length_cons]; omega, ?_⟩
      intro hlt
      have hx2 : findEndLoopList openC closeC xs (cnt + 1) < xs.length := by
        simp only [List.length_cons] at hlt; omega
      rw [Nat.add_comm 1]
      simpa using ih2 hx2
    · by_cases hc : x = closeC
      · have hno : ¬ closeC = openC := fun he => hx (hc.trans he)
        by_cases h1 : cnt - 1 = 0
        · simp [findEndLoopList, if_neg h, hx, hc, if_neg hno, h1]
        · obtain ⟨ih1, ih2⟩ := ih (cnt - 1) h1
          simp only [findEndLoopList, if_neg h, hx, hc, if_neg hno, eq_self_iff_true, if_true,
            if_neg h1]
          refine ⟨by simp only [List.length_cons]; omega, ?_⟩
          intro hlt
          have hx2 : findEndLoopList openC closeC xs (cnt - 1) < xs.length := by
            simp only [List.length_cons] at hlt; omega
          rw [Nat.add_comm 1]
          simpa using ih2 hx2
      · obtain ⟨ih1, ih2⟩ := ih cnt h
        simp only [findEndLoopList, if_neg h, if_neg hx, if_neg hc]
        refine ⟨by simp only [List.length_cons]; omega, ?_⟩
        intro hlt
        have hx2 : findEndLoopList openC closeC xs cnt < xs.length := by
          simp only [List.length_cons] at hlt; omega
        rw [Nat.add_comm 1]
        simpa using ih2 hx2

/-- Depth characterization of the scan loop: the depth is nonzero strictly
before the stopping offset, and zero at the stopping offset whenever the
loop stops inside the suffix. -/
theorem findEndLoopList_depth (openC closeC : Char) (hne : openC ≠ closeC) (l : List Char) :
    ∀ cnt : Nat, cnt ≠ 0 →
      (∀ k, k < findEndLoopList openC closeC l cnt → depthAfter openC closeC l cnt k ≠ 0) ∧
      (findEndLoopList openC closeC l cnt < l.length →
        depthAfter openC closeC l cnt (findEndLoopList openC closeC l cnt) = 0) := by
  have hne' : closeC ≠ openC := Ne.symm hne
  induction l with
  | nil => intro cnt h; simp [findEndLoopList]
  | cons x xs ih =>
    intro cnt h
    by_cases hx : x = openC
    · have h' : cnt + 1 ≠ 0 := by omega
      obtain ⟨ih1, ih2⟩ := ih (cnt + 1) h'
      have hd0 : depthAfter openC closeC (openC :: xs) cnt 0 = (cnt : Int) + 1 := by
        simp [depthAfter, List.count_cons, hne']
      have hdS : ∀ k, depthAfter openC closeC (openC :: xs) cnt (k + 1)
          = depthAfter openC closeC xs (cnt + 1) k := by
        intro k
        simp [depthAfter, List.take_succ_cons, List.count_cons, hne']
        ring
      simp only [findEndLoopList, if_neg h, hx, eq_self_iff_true, if_true, if_neg h']
      constructor
      · intro k hk
        match k with
        | 0 => rw [hd0]; omega
        | k + 1 =>
          rw [hdS]
          exact ih1 k (by omega)
      · intro hlt
        rw [Nat.add_comm 1, hdS]
        exact ih2 (by simp only [List.length_cons] at hlt; omega)
    · by_cases hc : x = closeC
      · have hd0 : depthAfter openC closeC (closeC :: xs) cnt 0 = (cnt : Int) - 1 := by
          simp [depthAfter, List.count_cons, hne']
        have hdS : ∀ k, depthAfter openC closeC (closeC :: xs) cnt (k + 1)
            = depthAfter openC closeC xs (cnt - 1) k := by
          intro k
          simp [depthAfter, List.take_succ_cons, List.count_cons, hne']
          push_cast [Nat.cast_sub (by omega : 1 ≤ cnt)]
          ring
        by_cases h1 : cnt - 1 = 0
        · simp only [findEndLoopList, if_neg h, hc, if_neg hne', eq_self_iff_true, if_true,
            if_pos h1]
          constructor
          · intro k hk; omega
          · intro _; rw [hd0]; omega
        · obtain ⟨ih1, ih2⟩ := ih (cnt - 1) h1
          simp only [findEndLoopList, if_neg h, hc, if_neg hne', eq_self_iff_true, if_true,
            if_neg h1]
          constructor
          · intro k hk
            match k with
            | 0 => rw [hd0]; omega
            | k + 1 =>
              rw [hdS]
              exact ih1 k (by omega)
          · intro hlt
            rw [Nat.add_comm 1, hdS]
            exact ih2 (by simp only [List.length_cons] at hlt; omega)
      · obtain ⟨ih1, ih2⟩ := ih cnt h
        have hd0 : depthAfter openC closeC (x :: xs) cnt 0 = (cnt : Int) := by
          simp [depthAfter, List.count_cons, hx, hc]
        have hdS : ∀ k, depthAfter openC closeC (x :: xs) cnt (k + 1)
            = depthAfter openC closeC xs cnt k := by
          intro k
          simp [depthAfter, List.take_succ_cons, List.count_cons, hx, hc]
        simp only [findEndLoopList, if_neg h, if_neg hx, if_neg hc]
        constructor
        · intro k hk
          match k with
          | 0 => rw [hd0]; omega
          | k + 1 =>
            rw [hdS]
            exact ih1 k (by omega)
        · intro hlt
          rw [Nat.add_comm 1, hdS]
          exact ih2 (by simp only [List.length_cons] at hlt; omega)

/-- `bracketDepth` over `r` is `depthAfter` over the suffix scanned by the
loop. -/
theorem bracketDepth_eq_depthAfter (r : List Char) (openC closeC : Char) (k j : Nat)
    (hj : k < j) :
    bracketDepth r openC closeC k j
      = depthAfter openC closeC (r.drop (k + 1)) 1 (j - (k + 1)) := by
  unfold bracketDepth depthAfter
  rw [List.drop_take (j + 1) (k + 1) r]
  have heq : j + 1 - (k + 1) = (j - (k + 1)) + 1 := by omega
  rw [heq]
  push_cast
  ring

/-- C2: for every rune sequence, start index and bracket pair,
`findEndingParenthesis` returns `-1` exactly when the precondition (index in
bounds and holding the opening character) fails; otherwise it returns the
first index after `openIdx` at which the nesting depth — raised by each later
occurrence of the opening character, lowered by each occurrence of the
closing character — reaches 0, or `r.length` when the depth never reaches 0
before the sequence is exhausted.  The two sentinels `-1` and `r.length` are
always distinct. -/
theorem findEndingParenthesis_matching (r : List Char) (openIdx : Int) (openC closeC : Char)
    (hne : openC ≠ closeC) :
    (¬ (0 ≤ openIdx ∧ openIdx < (r.length : Int) ∧ r.get? openIdx.toNat = some openC) →
        findEndingParenthesis r openIdx openC closeC = -1) ∧
    ((0 ≤ openIdx ∧ openIdx < (r.length : Int) ∧ r.get? openIdx.toNat = some openC) →
      (∀ j : Nat, openIdx < (j : Int) → j < r.length →
          bracketDepth r openC closeC openIdx.toNat j = 0 →
          (∀ k : Nat, openIdx < (k : Int) → k < j →
            bracketDepth r openC closeC openIdx.toNat k ≠ 0) →
          findEndingParenthesis r openIdx openC closeC = (j : Int)) ∧
      ((∀ j : Nat, openIdx < (j : Int) → j < r.length →
          bracketDepth r openC closeC openIdx.toNat j ≠ 0) →
        findEndingParenthesis r openIdx openC closeC = (r.length : Int))) ∧
    (-1 : Int) ≠ (r.length : Int) := by
  refine ⟨?_, ?_, by omega⟩
  · intro hnpre
    rw [findEndingParenthesis, if_pos]
    by_contra hC
    push_neg at hC
    exact hnpre hC
  · intro hpre
    obtain ⟨h0, hlen, hget⟩ := hpre
    have hnotc : ¬ (openIdx < 0 ∨ (r.length : Int) ≤ openIdx ∨
        r.get? openIdx.toNat ≠ some openC) := by
      push_neg
      exact ⟨h0, hlen, hget⟩
    have hres : findEndingParenthesis r openIdx openC closeC
        = openIdx + 1 + (findEndLoopList openC closeC (r.drop (openIdx.toNat + 1)) 1 : Int) := by
      rw [findEndingParenthesis, if_neg hnotc]
    have hk : openIdx = (openIdx.toNat : Int) := (Int.toNat_of_nonneg h0).symm
    obtain ⟨hle, _⟩ :=
      findEndLoopList_le openC closeC (r.drop (openIdx.toNat + 1)) 1 one_ne_zero
    obtain ⟨hd1, hd2⟩ :=
      findEndLoopList_depth openC closeC hne (r.drop (openIdx.toNat + 1)) 1 one_ne_zero
    have hdl : (r.drop (openIdx.toNat + 1)).length = r.length - (openIdx.toNat + 1) :=
      List.length_drop _ _
    rw [hdl] at hle
    constructor
    · intro j hj1 hj2 hz hmin
      have hkj : openIdx.toNat < j := by omega
      rw [bracketDepth_eq_depthAfter r openC closeC openIdx.toNat j hkj] at hz
      rcases lt_trichotomy (findEndLoopList openC closeC (r.drop (openIdx.toNat + 1)) 1)
          (j - (openIdx.toNat + 1)) with hlt | heq | hgt
      · exfalso
        have hofflt : findEndLoopList openC closeC (r.drop (openIdx.toNat + 1)) 1
            < (r.drop (openIdx.toNat + 1)).length := by rw [hdl]; omega
        have hzero := hd2 hofflt
        have hidx : openIdx < ((openIdx.toNat + 1 + findEndLoopList openC closeC
            (r.drop (openIdx.toNat + 1)) 1 : Nat) : Int) := by push_cast; omega
        have hidx2 : openIdx.toNat + 1 + findEndLoopList openC closeC
            (r.drop (openIdx.toNat + 1)) 1 < j := by omega
        have hne0 := hmin _ hidx hidx2
        rw [bracketDepth_eq_depthAfter r openC closeC openIdx.toNat _ (by omega)] at hne0
        have hsimp : openIdx.toNat + 1 + findEndLoopList openC closeC
            (r.drop (openIdx.toNat + 1)) 1 - (openIdx.toNat + 1)
            = findEndLoopList openC closeC (r.drop (openIdx.toNat + 1)) 1 := by omega
        rw [hsimp] at hne0
        exact hne0 hzero
      · rw [hres]; omega
      · exfalso
        exact hd1 _ hgt hz
    · intro hall
      by_cases hoff : findEndLoopList openC closeC (r.drop (openIdx.toNat + 1)) 1
          = r.length - (openIdx.toNat + 1)
      · rw [hres]; omega
      · exfalso
        have hofflt : findEndLoopList openC closeC (r.drop (openIdx.toNat + 1)) 1
            < (r.drop (openIdx.toNat + 1)).length := by rw [hdl]; omega
        have hzero := hd2 hofflt
        have hj1 : openIdx < ((openIdx.toNat + 1 + findEndLoopList openC closeC
            (r.drop (openIdx.toNat + 1)) 1 : Nat) : Int) := by push_cast; omega
        have hj2 : openIdx.toNat + 1 + findEndLoopList openC closeC
            (r.drop (openIdx.toNat + 1)) 1 < r.length := by
          rw [hdl] at hofflt; omega
        have hne0 := hall _ hj1 hj2
        rw [bracketDepth_eq_depthAfter r openC closeC openIdx.toNat _ (by omega)] at hne0
        have hsimp : openIdx.toNat + 1 + findEndLoopList openC closeC
            (r.drop (openIdx.toNat + 1)) 1 - (openIdx.toNat + 1)
            = findEndLoopList openC closeC (r.drop (openIdx.toNat + 1)) 1 := by omega
        rw [hsimp] at hne0
        exact hne0 hzero

/-- Witness for C2: on `"(a)"` with the parenthesis pair, the matching index
computed via the depth characterization is 2. -/
theorem findEndingParenthesis_matching_witness :
    findEndingParenthesis [Char.ofNat 40, Char.ofNat 97, Char.ofNat 41] 0
      (Char.ofNat 40) (Char.ofNat 41) = 2 := by
  have h := findEndingParenthesis_matching [Char.ofNat 40, Char.ofNat 97, Char.ofNat 41] 0
    (Char.ofNat 40) (Char.ofNat 41) (by decide)
  refine (h.2.1 (by decide)).1 2 (by decide) (by decide) (by decide) ?_
  intro k hk1 hk2
  have hk0 : 0 < k := by exact_mod_cast hk1
  interval_cases k
  decide

/-- C9: the value returned by `findEndingParenthesis` is either `-1`, or lies
in the half-open range `(openIdx, r.length]`; whenever it is an index
strictly inside the sequence, the rune at that index equals the closing
character. -/
theorem findEndingParenthesis_range (r : List Char) (openIdx : Int) (openC closeC : Char) :
    findEndingParenthesis r openIdx openC closeC = -1 ∨
      (openIdx < findEndingParenthesis r openIdx openC closeC ∧
       findEndingParenthesis r openIdx openC closeC ≤ (r.length : Int) ∧
       (findEndingParenthesis r openIdx openC closeC = (r.length : Int) ∨
        r.get? (findEndingParenthesis r openIdx openC closeC).toNat = some closeC)) := by
  by_cases hpre : openIdx < 0 ∨ (r.length : Int) ≤ openIdx ∨ r.get? openIdx.toNat ≠ some openC
  · left; simp only [findEndingParenthesis, if_pos hpre]
  · have hres : findEndingParenthesis r openIdx openC closeC
        = openIdx + 1 + (findEndLoopList openC closeC (r.drop (openIdx.toNat + 1)) 1 : Int) := by
      rw [findEndingParenthesis, if_neg hpre]
    push_neg at hpre
    obtain ⟨h0, hlen, hget⟩ := hpre
    have hk : openIdx = (openIdx.toNat : Int) := (Int.toNat_of_nonneg h0).symm
    obtain ⟨hle, hin⟩ :=
      findEndLoopList_le openC closeC (r.drop (openIdx.toNat + 1)) 1 one_ne_zero
    have hdl : (r.drop (openIdx.toNat + 1)).length = r.length - (openIdx.toNat + 1) :=
      List.length_drop _ _
    rw [hdl] at hle
    right
    refine ⟨by rw [hres]; omega, by rw [hres]; omega, ?_⟩
    by_cases hoff : findEndLoopList openC closeC (r.drop (openIdx.toNat + 1)) 1
        = r.length - (openIdx.toNat + 1)
    · left; rw [hres]; omega
    · right
      have hofflt : findEndLoopList openC closeC (r.drop (openIdx.toNat + 1)) 1
          < r.length - (openIdx.toNat + 1) := lt_of_le_of_ne hle hoff
      have h1 := hin (by rw [hdl]; exact hofflt)
      rw [List.get?_eq_getElem?, List.getElem?_drop] at h1
      have h2 : (openIdx + 1 + (findEndLoopList openC closeC
          (r.drop (openIdx.toNat + 1)) 1 : Int)).toNat
          = openIdx.toNat + 1 + findEndLoopList openC closeC (r.drop (openIdx.toNat + 1)) 1 := by
        omega
      rw [List.get?_eq_getElem?, hres, h2]
      exact h1


theorem resolveLoop_nil (env : String → Option String)
    (exec : Nat → String → String → ExecResult) (t : Nat) (cwd : String) (acc : String) :
    resolveLoop env exec t cwd [] acc = (acc, none) := by
  rw [resolveLoop]

theorem resolveLoop_one (env : String → Option String)
    (exec : Nat → String → String → ExecResult) (t : Nat) (cwd : String) (c : Char)
    (acc : String) :
    resolveLoop env exec t cwd [c] acc = (acc.push c, none) := by
  rw [resolveLoop]

theorem resolveLoop_copy (env : String → Option String)
    (exec : Nat → String → String → ExecResult) (t : Nat) (cwd : String) (c d : Char)
    (ds : List Char) (acc : String) (hc : c ≠ '$') :
    resolveLoop env exec t cwd (c :: d :: ds) acc
      = resolveLoop env exec t cwd (d :: ds) (acc.push c) := by
  rw [resolveLoop, if_neg hc]

theorem resolveLoop_dollar_other (env : String → Option String)
    (exec : Nat → String → String → ExecResult) (t : Nat) (cwd : String) (d : Char)
    (ds : List Char) (acc : String) (hd1 : d ≠ lbrace) (hd2 : d ≠ '(') :
    resolveLoop env exec t cwd ('$' :: d :: ds) acc
      = resolveLoop env exec t cwd (d :: ds) (acc.push '$') := by
  rw [resolveLoop, if_pos rfl, if_neg hd1, if_neg hd2]

theorem resolveLoop_brace_mismatch (env : String → Option String)
    (exec : Nat → String → String → ExecResult) (t : Nat) (cwd : String) (ds : List Char)
    (acc : String)
    (he : findEndingParenthesis ('$' :: lbrace :: ds) 1 lbrace rbrace
      = (('$' :: lbrace :: ds).length : Int)) :
    resolveLoop env exec t cwd ('$' :: lbrace :: ds) acc
      = ("", some .curlyBracketParMatch) := by
  rw [resolveLoop, if_pos rfl, if_pos rfl]
  dsimp only
  rw [if_neg (by rw [he]; simp only [List.length_cons]; omega), if_pos he]

theorem resolveLoop_brace_notFound (env : String → Option String)
    (exec : Nat → String → String → ExecResult) (t : Nat) (cwd : String) (ds : List Char)
    (acc : String)
    (he1 : findEndingParenthesis ('$' :: lbrace :: ds) 1 lbrace rbrace ≠ -1)
    (he2 : findEndingParenthesis ('$' :: lbrace :: ds) 1 lbrace rbrace
      ≠ (('$' :: lbrace :: ds).length : Int))
    (henv : env (String.mk ((('$' :: lbrace :: ds).drop 2).take
      ((findEndingParenthesis ('$' :: lbrace :: ds) 1 lbrace rbrace).toNat - 2))) = none) :
    resolveLoop env exec t cwd ('$' :: lbrace :: ds) acc
      = ("", some (.envVarNotFound (String.mk ((('$' :: lbrace :: ds).drop 2).take
          ((findEndingParenthesis ('$' :: lbrace :: ds) 1 lbrace rbrace).toNat - 2))))) := by
  rw [resolveLoop, if_pos rfl, if_pos rfl]
  dsimp only
  rw [if_neg he1, if_neg he2, henv]

theorem resolveLoop_brace_found (env : String → Option String)
    (exec : Nat → String → String → ExecResult) (t : Nat) (cwd : String) (ds : List Char)
    (acc : String) (v : String)
    (he1 : findEndingParenthesis ('$' :: lbrace :: ds) 1 lbrace rbrace ≠ -1)
    (he2 : findEndingParenthesis ('$' :: lbrace :: ds) 1 lbrace rbrace
      ≠ (('$' :: lbrace :: ds).length : Int))
    (henv : env (String.mk ((('$' :: lbrace :: ds).drop 2).take
      ((findEndingParenthesis ('$' :: lbrace :: ds) 1 lbrace rbrace).toNat - 2))) = some v) :
    resolveLoop env exec t cwd ('$' :: lbrace :: ds) acc
      = resolveLoop env exec t cwd
          (('$' :: lbrace :: ds).drop
            ((findEndingParenthesis ('$' :: lbrace :: ds) 1 lbrace rbrace).toNat + 1))
          (acc ++ v) := by
  rw [resolveLoop, if_pos rfl, if_pos rfl]
  dsimp only
  rw [if_neg he1, if_neg he2, henv]

theorem resolveLoop_paren_mismatch (env : String → Option String)
    (exec : Nat → String → String → ExecResult) (t : Nat) (cwd : String) (ds : List Char)
    (acc : String)
    (he : findEndingParenthesis ('$' :: '(' :: ds) 1 '(' ')'
      = (('$' :: '(' :: ds).length : Int)) :
    resolveLoop env exec t cwd ('$' :: '(' :: ds) acc
      = ("", some .bracketParMatch) := by
  rw [resolveLoop, if_pos rfl, if_neg (by decide), if_pos rfl]
  dsimp only
  rw [if_neg (by rw [he]; simp only [List.length_cons]; omega), if_pos he]

theorem resolveLoop_paren_launchFail (env : String → Option String)
    (exec : Nat → String → String → ExecResult) (t : Nat) (cwd : String) (ds : List Char)
    (acc : String)
    (he1 : findEndingParenthesis ('$' :: '(' :: ds) 1 '(' ')' ≠ -1)
    (he2 : findEndingParenthesis ('$' :: '(' :: ds) 1 '(' ')'
      ≠ (('$' :: '(' :: ds).length : Int))
    (hrc : (exec t cwd (String.mk ((('$' :: '(' :: ds).drop 2).take
      ((findEndingParenthesis ('$' :: '(' :: ds) 1 '(' ')').toNat - 2)))).retCode = -1) :
    resolveLoop env exec t cwd ('$' :: '(' :: ds) acc
      = ("", some (.shellExec (String.mk ((('$' :: '(' :: ds).drop 2).take
          ((findEndingParenthesis ('$' :: '(' :: ds) 1 '(' ')').toNat - 2)))
          (exec t cwd (String.mk ((('$' :: '(' :: ds).drop 2).take
            ((findEndingParenthesis ('$' :: '(' :: ds) 1 '(' ')').toNat - 2)))).err)) := by
  rw [resolveLoop, if_pos rfl, if_neg (by decide), if_pos rfl]
  dsimp only
  rw [if_neg he1, if_neg he2, if_pos hrc]

theorem resolveLoop_paren_launched (env : String → Option String)
    (exec : Nat → String → String → ExecResult) (t : Nat) (cwd : String) (ds : List Char)
    (acc : String)
    (he1 : findEndingParenthesis ('$' :: '(' :: ds) 1 '(' ')' ≠ -1)
    (he2 : findEndingParenthesis ('$' :: '(' :: ds) 1 '(' ')'
      ≠ (('$' :: '(' :: ds).length : Int))
    (hrc : (exec t cwd (String.mk ((('$' :: '(' :: ds).drop 2).take
      ((findEndingParenthesis ('$' :: '(' :: ds) 1 '(' ')').toNat - 2)))).retCode ≠ -1) :
    resolveLoop env exec t cwd ('$' :: '(' :: ds) acc
      = resolveLoop env exec t cwd
          (('$' :: '(' :: ds).drop
            ((findEndingParenthesis ('$' :: '(' :: ds) 1 '(' ')').toNat + 1))
          (acc ++ (exec t cwd (String.mk ((('$' :: '(' :: ds).drop 2).take
            ((findEndingParenthesis ('$' :: '(' :: ds) 1 '(' ')').toNat - 2)))).output) := by
  rw [resolveLoop, if_pos rfl, if_neg (by decide), if_pos rfl]
  dsimp only
  rw [if_neg he1, if_neg he2, if_neg hrc]

theorem resolveLoop_brace_invalid (env : String → Option String)
    (exec : Nat → String → String → ExecResult) (t : Nat) (cwd : String) (ds : List Char)
    (acc : String)
    (he : findEndingParenthesis ('$' :: lbrace :: ds) 1 lbrace rbrace = -1) :
    resolveLoop env exec t cwd ('$' :: lbrace :: ds) acc
      = ("", some .unexpectedTokenization) := by
  rw [resolveLoop, if_pos rfl, if_pos rfl]
  dsimp only
  rw [if_pos he]

theorem resolveLoop_paren_invalid (env : String → Option String)
    (exec : Nat → String → String → ExecResult) (t : Nat) (cwd : String) (ds : List Char)
    (acc : String)
    (he : findEndingParenthesis ('$' :: '(' :: ds) 1 '(' ')' = -1) :
    resolveLoop env exec t cwd ('$' :: '(' :: ds) acc
      = ("", some .unexpectedTokenization) := by
  rw [resolveLoop, if_pos rfl, if_neg (by decide), if_pos rfl]
  dsimp only
  rw [if_pos he]

theorem string_push_append (a b : String) (c : Char) : (a ++ b).push c = a ++ b.push c := by
  apply String.ext
  simp [String.data_push, String.data_append, List.append_assoc]

theorem resolveLoop_error_empty (env : String → Option String)
    (exec : Nat → String → String → ExecResult) (t : Nat) (cwd : String) :
    ∀ n : Nat, ∀ l : List Char, l.length ≤ n → ∀ acc : String, ∀ ev : ResolveError,
      (resolveLoop env exec t cwd l acc).2 = some ev →
      (resolveLoop env exec t cwd l acc).1 = "" := by
  intro n
  induction n with
  | zero =>
    intro l hl acc ev h
    have hnil : l = [] := List.length_eq_zero.mp (Nat.le_zero.mp hl)
    subst hnil
    rw [resolveLoop_nil] at h
    simp at h
  | succ n ih =>
    intro l hl acc ev h
    match l with
    | [] => rw [resolveLoop_nil] at h; simp at h
    | [c] => rw [resolveLoop_one] at h; simp at h
    | c :: d :: ds =>
      by_cases hc : c = '$'
      · subst hc
        by_cases hd1 : d = lbrace
        · subst hd1
          by_cases he1 : findEndingParenthesis ('$' :: lbrace :: ds) 1 lbrace rbrace = -1
          · rw [resolveLoop_brace_invalid env exec t cwd ds acc he1]
          · by_cases he2 : findEndingParenthesis ('$' :: lbrace :: ds) 1 lbrace rbrace
                = (('$' :: lbrace :: ds).length : Int)
            · rw [resolveLoop_brace_mismatch env exec t cwd ds acc he2]
            · rcases henv : env (String.mk ((('$' :: lbrace :: ds).drop 2).take
                  ((findEndingParenthesis ('$' :: lbrace :: ds) 1 lbrace rbrace).toNat - 2)))
                with _ | v
              · rw [resolveLoop_brace_notFound env exec t cwd ds acc he1 he2 henv]
              · rw [resolveLoop_brace_found env exec t cwd ds acc v he1 he2 henv] at h ⊢
                exact ih _ (by simp only [List.length_drop, List.length_cons] at hl ⊢; omega)
                  _ _ h
        · by_cases hd2 : d = '('
          · subst hd2
            by_cases he1 : findEndingParenthesis ('$' :: '(' :: ds) 1 '(' ')' = -1
            · rw [resolveLoop_paren_invalid env exec t cwd ds acc he1]
            · by_cases he2 : findEndingParenthesis ('$' :: '(' :: ds) 1 '(' ')'
                  = (('$' :: '(' :: ds).length : Int)
              · rw [resolveLoop_paren_mismatch env exec t cwd ds acc he2]
              · by_cases hrc : (exec t cwd (String.mk ((('$' :: '(' :: ds).drop 2).take
                    ((findEndingParenthesis ('$' :: '(' :: ds) 1 '(' ')').toNat - 2)))).retCode
                    = -1
                · rw [resolveLoop_paren_launchFail env exec t cwd ds acc he1 he2 hrc]
                · rw [resolveLoop_paren_launched env exec t cwd ds acc he1 he2 hrc] at h ⊢
                  exact ih _ (by simp only [List.length_drop, List.length_cons] at hl ⊢; omega)
                    _ _ h
          · rw [resolveLoop_dollar_other env exec t cwd d ds acc hd1 hd2] at h ⊢
            exact ih _ (by simp only [List.length_cons] at hl ⊢; omega) _ _ h
      · rw [resolveLoop_copy env exec t cwd c d ds acc hc] at h ⊢
        exact ih _ (by simp only [List.length_cons] at hl ⊢; omega) _ _ h

theorem resolveLoop_acc (env : String → Option String)
    (exec : Nat → String → String → ExecResult) (t : Nat) (cwd : String) :
    ∀ n : Nat, ∀ l : List Char, l.length ≤ n → ∀ a b : String,
      (resolveLoop env exec t cwd l (a ++ b)).2 = (resolveLoop env exec t cwd l b).2 ∧
      ((resolveLoop env exec t cwd l b).2 = none →
        (resolveLoop env exec t cwd l (a ++ b)).1 = a ++ (resolveLoop env exec t cwd l b).1) := by
  intro n
  induction n with
  | zero =>
    intro l hl a b
    have hnil : l = [] := List.length_eq_zero.mp (Nat.le_zero.mp hl)
    subst hnil
    rw [resolveLoop_nil, resolveLoop_nil]
    exact ⟨rfl, fun _ => rfl⟩
  | succ n ih =>
    intro l hl a b
    match l with
    | [] =>
      rw [resolveLoop_nil, resolveLoop_nil]
      exact ⟨rfl, fun _ => rfl⟩
    | [c] =>
      rw [resolveLoop_one, resolveLoop_one]
      exact ⟨rfl, fun _ => string_push_append a b c⟩
    | c :: d :: ds =>
      by_cases hc : c = '$'
      · subst hc
        by_cases hd1 : d = lbrace
        · subst hd1
          by_cases he1 : findEndingParenthesis ('$' :: lbrace :: ds) 1 lbrace rbrace = -1
          · rw [resolveLoop_brace_invalid env exec t cwd ds _ he1,
              resolveLoop_brace_invalid env exec t cwd ds _ he1]
            exact ⟨rfl, by intro hcontra; simp at hcontra⟩
          · by_cases he2 : findEndingParenthesis ('$' :: lbrace :: ds) 1 lbrace rbrace
                = (('$' :: lbrace :: ds).length : Int)
            · rw [resolveLoop_brace_mismatch env exec t cwd ds _ he2,
                resolveLoop_brace_mismatch env exec t cwd ds _ he2]
              exact ⟨rfl, by intro hcontra; simp at hcontra⟩
            · rcases henv : env (String.mk ((('$' :: lbrace :: ds).drop 2).take
                  ((findEndingParenthesis ('$' :: lbrace :: ds) 1 lbrace rbrace).toNat - 2)))
                with _ | v
              · rw [resolveLoop_brace_notFound env exec t cwd ds _ he1 he2 henv,
                  resolveLoop_brace_notFound env exec t cwd ds _ he1 he2 henv]
                exact ⟨rfl, by intro hcontra; simp at hcontra⟩
              · rw [resolveLoop_brace_found env exec t cwd ds _ v he1 he2 henv,
                  resolveLoop_brace_found env exec t cwd ds _ v he1 he2 henv,
                  String.append_assoc]
                exact ih _ (by simp only [List.length_drop, List.length_cons] at hl ⊢; omega)
                  a (b ++ v)
        · by_cases hd2 : d = '('
          · subst hd2
            by_cases he1 : findEndingParenthesis ('$' :: '(' :: ds) 1 '(' ')' = -1
            · rw [resolveLoop_paren_invalid env exec t cwd ds _ he1,
                resolveLoop_paren_invalid env exec t cwd ds _ he1]
              exact ⟨rfl, by intro hcontra; simp at hcontra⟩
            · by_cases he2 : findEndingParenthesis ('$' :: '(' :: ds) 1 '(' ')'
                  = (('$' :: '(' :: ds).length : Int)
              · rw [resolveLoop_paren_mismatch env exec t cwd ds _ he2,
                  resolveLoop_paren_mismatch env exec t cwd ds _ he2]
                exact ⟨rfl, by intro hcontra; simp at hcontra⟩
              · by_cases hrc : (exec t cwd (String.mk ((('$' :: '(' :: ds).drop 2).take
                    ((findEndingParenthesis ('$' :: '(' :: ds) 1 '(' ')').toNat - 2)))).retCode
                    = -1
                · rw [resolveLoop_paren_launchFail env exec t cwd ds _ he1 he2 hrc,
                    resolveLoop_paren_launchFail env exec t cwd ds _ he1 he2 hrc]
                  exact ⟨rfl, by intro hcontra; simp at hcontra⟩
                · rw [resolveLoop_paren_launched env exec t cwd ds _ he1 he2 hrc,
                    resolveLoop_paren_launched env exec t cwd ds _ he1 he2 hrc,
                    String.append_assoc]
                  exact ih _ (by simp only [List.length_drop, List.length_cons] at hl ⊢; omega)
                    a _
          · rw [resolveLoop_dollar_other env exec t cwd d ds _ hd1 hd2,
              resolveLoop_dollar_other env exec t cwd d ds _ hd1 hd2,
              string_push_append]
            exact ih _ (by simp only [List.length_cons] at hl ⊢; omega) a _
      · rw [resolveLoop_copy env exec t cwd c d ds _ hc,
          resolveLoop_copy env exec t cwd c d ds _ hc,
          string_push_append]
        exact ih _ (by simp only [List.length_cons] at hl ⊢; omega) a _

theorem string_push_eq (a : String) (c : Char) : a.push c = a ++ String.mk [c] := by
  apply String.ext
  simp [String.data_push, String.data_append]

theorem string_push_cons (a : String) (c : Char) (l : List Char) :
    (a.push c) ++ String.mk l = a ++ String.mk (c :: l) := by
  apply String.ext
  simp [String.data_push, String.data_append]

theorem resolveLoop_prefix (env : String → Option String)
    (exec : Nat → String → String → ExecResult) (t : Nat) (cwd : String) (l : List Char)
    (a : String) :
    resolveLoop env exec t cwd l a
      = match resolveLoop env exec t cwd l "" with
        | (s, none) => (a ++ s, none)
        | (_, some e) => ("", some e) := by
  have h := resolveLoop_acc env exec t cwd l.length l le_rfl a ""
  rw [String.append_empty] at h
  obtain ⟨h1, h2⟩ := h
  rcases hr : resolveLoop env exec t cwd l "" with ⟨s, oe⟩
  rcases oe with _ | e
  · rw [hr] at h1 h2
    exact Prod.ext_iff.mpr ⟨h2 rfl, h1⟩
  · rw [hr] at h1
    have hfst := resolveLoop_error_empty env exec t cwd l.length l le_rfl a e h1
    exact Prod.ext_iff.mpr ⟨hfst, h1⟩

theorem resolveLoop_noDollar (env : String → Option String)
    (exec : Nat → String → String → ExecResult) (t : Nat) (cwd : String) :
    ∀ n : Nat, ∀ l : List Char, l.length ≤ n → (∀ c ∈ l, c ≠ '$') → ∀ acc : String,
      resolveLoop env exec t cwd l acc = (acc ++ String.mk l, none) := by
  intro n
  induction n with
  | zero =>
    intro l hl _ acc
    have hnil : l = [] := List.length_eq_zero.mp (Nat.le_zero.mp hl)
    subst hnil
    rw [resolveLoop_nil, String.append_empty]
  | succ n ih =>
    intro l hl hnd acc
    match l with
    | [] => rw [resolveLoop_nil, String.append_empty]
    | [c] => rw [resolveLoop_one, string_push_eq]
    | c :: d :: ds =>
      have hc : c ≠ '$' := hnd c (by simp)
      rw [resolveLoop_copy env exec t cwd c d ds acc hc]
      rw [ih (d :: ds) (by simp only [List.length_cons] at hl ⊢; omega)
        (fun x hx => hnd x (by simp [hx])) (acc.push c)]
      rw [string_push_cons]

theorem findEndLoopList_plain (openC closeC : Char) (hne : openC ≠ closeC) :
    ∀ (name : List Char), (∀ c ∈ name, c ≠ openC ∧ c ≠ closeC) → ∀ rest : List Char,
      findEndLoopList openC closeC (name ++ closeC :: rest) 1 = name.length := by
  intro name
  induction name with
  | nil =>
    intro _ rest
    simp [findEndLoopList, Ne.symm hne]
  | cons c cs ih =>
    intro hplain rest
    have hc1 : c ≠ openC := (hplain c (by simp)).1
    have hc2 : c ≠ closeC := (hplain c (by simp)).2
    rw [List.cons_append, findEndLoopList]
    simp only [if_neg hc1, if_neg hc2, one_ne_zero, if_false]
    rw [ih (fun x hx => hplain x (by simp [hx])) rest]
    simp [Nat.add_comm]

theorem findEndingParenthesis_span (c0 openC closeC : Char) (hne : openC ≠ closeC)
    (name rest : List Char) (hplain : ∀ c ∈ name, c ≠ openC ∧ c ≠ closeC) :
    findEndingParenthesis (c0 :: openC :: (name ++ closeC :: rest)) 1 openC closeC
      = (name.length : Int) + 2 := by
  rw [findEndingParenthesis, if_neg]
  · have h2 : ((1 : Int)).toNat + 1 = 2 := rfl
    rw [h2]
    show (1 : Int) + 1 + _ = _
    have hdrop : (c0 :: openC :: (name ++ closeC :: rest)).drop 2 = name ++ closeC :: rest := rfl
    rw [hdrop, findEndLoopList_plain openC closeC hne name hplain rest]
    push_cast
    ring
  · push_neg
    refine ⟨by norm_num, ?_, ?_⟩
    · simp only [List.length_cons, List.length_append]
      push_cast
      omega
    · rfl

theorem claim_subshell_span (sub rest : List Char)
    (hsub : ∀ c ∈ sub, c ≠ '(' ∧ c ≠ ')') :
    (findEndingParenthesis ('$' :: '(' :: (sub ++ ')' :: rest)) 1 '(' ')' ≠ -1) ∧
    (findEndingParenthesis ('$' :: '(' :: (sub ++ ')' :: rest)) 1 '(' ')'
      ≠ ((('$' :: '(' :: (sub ++ ')' :: rest)).length : Nat) : Int)) ∧
    ((('$' :: '(' :: (sub ++ ')' :: rest)).drop 2).take
      ((findEndingParenthesis ('$' :: '(' :: (sub ++ ')' :: rest)) 1 '(' ')').toNat - 2) = sub) ∧
    (('$' :: '(' :: (sub ++ ')' :: rest)).drop
      ((findEndingParenthesis ('$' :: '(' :: (sub ++ ')' :: rest)) 1 '(' ')').toNat + 1)
      = rest) := by
  have hspan := findEndingParenthesis_span '$' '(' ')' (by decide) sub rest hsub
  have he1 : findEndingParenthesis ('$' :: '(' :: (sub ++ ')' :: rest)) 1 '(' ')' ≠ -1 := by
    rw [hspan]; omega
  have hlen : ((('$' :: '(' :: (sub ++ ')' :: rest)).length : Nat) : Int)
      = (sub.length : Int) + (rest.length : Int) + 3 := by
    simp only [List.length_cons, List.length_append]
    push_cast
    ring
  have he2 : findEndingParenthesis ('$' :: '(' :: (sub ++ ')' :: rest)) 1 '(' ')'
      ≠ ((('$' :: '(' :: (sub ++ ')' :: rest)).length : Nat) : Int) := by
    rw [hspan, hlen]; omega
  have htn : (findEndingParenthesis ('$' :: '(' :: (sub ++ ')' :: rest)) 1 '(' ')').toNat
      = sub.length + 2 := by rw [hspan]; omega
  refine ⟨he1, he2, ?_, ?_⟩
  · rw [htn]
    show (sub ++ ')' :: rest).take (sub.length + 2 - 2) = sub
    simp only [Nat.add_sub_cancel]
    exact List.take_left sub (')' :: rest)
  · rw [htn]
    have hgroup : '$' :: '(' :: (sub ++ ')' :: rest)
        = (('$' :: '(' :: sub) ++ [')']) ++ rest := by simp
    have hlen3 : (('$' :: '(' :: sub) ++ [')']).length = sub.length + 3 := by
      simp only [List.length_append, List.length_cons, List.length_nil]
    rw [hgroup, show sub.length + 2 + 1 = (('$' :: '(' :: sub) ++ [')']).length from by
      rw [hlen3]]
    exact List.drop_left _ _


/-- C1: for every command beginning with a well-formed dollar-curly span
whose variable name contains no curly braces, `resolveShellSubstitution`
uses the substring strictly between the braces verbatim as the environment
lookup key (even when it contains dollar-paren or similar syntax — no nested
substitution); if the variable is absent it fails with `envVarNotFound`
carrying exactly that name, and if present it appends the stored value to
the output exactly as stored, continuing with the rest of the command. -/
theorem resolveShellSubstitution_envVar_span (env : String → Option String)
    (exec : Nat → String → String → ExecResult) (t : Nat) (cwd : String)
    (name rest : List Char) (hname : ∀ c ∈ name, c ≠ lbrace ∧ c ≠ rbrace) :
    (env (String.mk name) = none →
      resolveShellSubstitution env exec t
          (String.mk ('$' :: lbrace :: (name ++ rbrace :: rest))) cwd
        = ("", some (.envVarNotFound (String.mk name)))) ∧
    (∀ v, env (String.mk name) = some v →
      resolveShellSubstitution env exec t
          (String.mk ('$' :: lbrace :: (name ++ rbrace :: rest))) cwd
        = match resolveShellSubstitution env exec t (String.mk rest) cwd with
          | (s, none) => (v ++ s, none)
          | (_, some e) => ("", some e)) := by
  have hspan := findEndingParenthesis_span '$' lbrace rbrace (by decide) name rest hname
  have he1 : findEndingParenthesis ('$' :: lbrace :: (name ++ rbrace :: rest)) 1 lbrace rbrace
      ≠ -1 := by rw [hspan]; omega
  have hlen : ((('$' :: lbrace :: (name ++ rbrace :: rest)).length : Nat) : Int)
      = (name.length : Int) + (rest.length : Int) + 3 := by
    simp only [List.length_cons, List.length_append]
    push_cast
    ring
  have he2 : findEndingParenthesis ('$' :: lbrace :: (name ++ rbrace :: rest)) 1 lbrace rbrace
      ≠ ((('$' :: lbrace :: (name ++ rbrace :: rest)).length : Nat) : Int) := by
    rw [hspan, hlen]; omega
  have htn : (findEndingParenthesis ('$' :: lbrace :: (name ++ rbrace :: rest)) 1
      lbrace rbrace).toNat = name.length + 2 := by rw [hspan]; omega
  have hvar : (('$' :: lbrace :: (name ++ rbrace :: rest)).drop 2).take
      ((findEndingParenthesis ('$' :: lbrace :: (name ++ rbrace :: rest)) 1
        lbrace rbrace).toNat - 2) = name := by
    rw [htn]
    show (name ++ rbrace :: rest).take (name.length + 2 - 2) = name
    simp only [Nat.add_sub_cancel]
    exact List.take_left name (rbrace :: rest)
  have hdrop : ('$' :: lbrace :: (name ++ rbrace :: rest)).drop
      ((findEndingParenthesis ('$' :: lbrace :: (name ++ rbrace :: rest)) 1
        lbrace rbrace).toNat + 1) = rest := by
    rw [htn]
    have hgroup : '$' :: lbrace :: (name ++ rbrace :: rest)
        = (('$' :: lbrace :: name) ++ [rbrace]) ++ rest := by simp
    have hlen3 : (('$' :: lbrace :: name) ++ [rbrace]).length = name.length + 3 := by
      simp only [List.length_append, List.length_cons, List.length_nil]
    rw [hgroup, show name.length + 2 + 1 = (('$' :: lbrace :: name) ++ [rbrace]).length from by
      rw [hlen3]]
    exact List.drop_left _ _
  constructor
  · intro henv
    rw [resolveShellSubstitution]
    show resolveLoop env exec t cwd ('$' :: lbrace :: (name ++ rbrace :: rest)) "" = _
    rw [resolveLoop_brace_notFound env exec t cwd _ "" he1 he2 (by rw [hvar]; exact henv)]
    rw [hvar]
  · intro v henv
    rw [resolveShellSubstitution]
    show resolveLoop env exec t cwd ('$' :: lbrace :: (name ++ rbrace :: rest)) "" = _
    rw [resolveLoop_brace_found env exec t cwd _ "" v he1 he2 (by rw [hvar]; exact henv)]
    rw [hdrop, String.empty_append, resolveLoop_prefix env exec t cwd rest v]
    rfl

/-- C3: for every dollar-paren span whose subprocess is successfully
launched (exit code different from the `-1` sentinel), the resolver appends
the captured stdout verbatim to the output and continues without error —
the exit code is otherwise ignored, so a nonzero exit code is not an
error. -/
theorem resolveShellSubstitution_subshell_output (env : String → Option String)
    (exec : Nat → String → String → ExecResult) (t : Nat) (cwd : String)
    (sub rest : List Char) (hsub : ∀ c ∈ sub, c ≠ '(' ∧ c ≠ ')')
    (hrc : (exec t cwd (String.mk sub)).retCode ≠ -1) :
    resolveShellSubstitution env exec t
        (String.mk ('$' :: '(' :: (sub ++ ')' :: rest))) cwd
      = match resolveShellSubstitution env exec t (String.mk rest) cwd with
        | (s, none) => ((exec t cwd (String.mk sub)).output ++ s, none)
        | (_, some e) => ("", some e) := by
  obtain ⟨he1, he2, hvar, hdrop⟩ := claim_subshell_span sub rest hsub
  rw [resolveShellSubstitution]
  show resolveLoop env exec t cwd ('$' :: '(' :: (sub ++ ')' :: rest)) "" = _
  rw [resolveLoop_paren_launched env exec t cwd _ "" he1 he2 (by rw [hvar]; exact hrc)]
  rw [hdrop, hvar, String.empty_append,
    resolveLoop_prefix env exec t cwd rest (exec t cwd (String.mk sub)).output]
  rfl

/-- Concrete environment used by the witnesses: binds exactly the variable
`V`. -/
def envW : String → Option String := fun s => if s = "V" then some "val" else none

/-- Concrete shell executor used by the witnesses: the command `s` times out
(launch-failure sentinel with a deadline cause), every other command runs
and exits with code 7 producing output `out`. -/
def execW : Nat → String → String → ExecResult := fun _ _ c =>
  if c = "s" then ⟨-1, "ignored", some .deadlineExceeded⟩ else ⟨7, "out", none⟩

/-- Witness for C1: resolving a dollar-curly reference to the bound variable
`V` yields its stored value. -/
theorem resolveShellSubstitution_envVar_span_witness :
    resolveShellSubstitution envW execW 1 (String.mk ['$', lbrace, 'V', rbrace]) "w"
      = ("val", none) := by
  have h := (resolveShellSubstitution_envVar_span envW execW 1 "w" ['V'] []
    (by decide)).2 "val" (by decide)
  rw [show String.mk ('$' :: lbrace :: (['V'] ++ rbrace :: []))
      = String.mk ['$', lbrace, 'V', rbrace] from rfl] at h
  rw [h]
  have hnil : resolveShellSubstitution envW execW 1 (String.mk ([] : List Char)) "w"
      = ("", none) := by
    rw [resolveShellSubstitution]
    exact resolveLoop_nil envW execW 1 "w" ""
  rw [hnil]
  simp [String.append_empty]

/-- Witness for C3: a dollar-paren command that launches and exits with the
nonzero code 7 contributes its stdout. -/
theorem resolveShellSubstitution_subshell_output_witness :
    resolveShellSubstitution envW execW 1 (String.mk ['$', '(', 'x', ')']) "w"
      = ("out", none) := by
  have h := resolveShellSubstitution_subshell_output envW execW 1 "w" ['x'] []
    (by decide) (by decide)
  rw [show String.mk ('$' :: '(' :: (['x'] ++ ')' :: []))
      = String.mk ['$', '(', 'x', ')'] from rfl] at h
  rw [h]
  have hnil : resolveShellSubstitution envW execW 1 (String.mk ([] : List Char)) "w"
      = ("", none) := by
    rw [resolveShellSubstitution]
    exact resolveLoop_nil envW execW 1 "w" ""
  rw [hnil]
  simp [String.append_empty]
  decide

/-- C4: the first error aborts the whole call with nothing partial:
`resolveShellSubstitution` returns the empty string alongside its error, and
`tokenizePromptCommand` returns the `nil` token list alongside the same
error, performing no tokenization. -/
theorem resolveShellSubstitution_error_total (env : String → Option String)
    (exec : Nat → String → String → ExecResult) (t : Nat) (cwd : String)
    (command : String) (e : ResolveError)
    (h : (resolveShellSubstitution env exec t command cwd).2 = some e) :
    (resolveShellSubstitution env exec t command cwd).1 = "" ∧
    tokenizePromptCommand env exec t command cwd = (none, some e) := by
  constructor
  · rw [resolveShellSubstitution] at h ⊢
    exact resolveLoop_error_empty env exec t cwd command.data.length command.data le_rfl "" e h
  · rw [tokenizePromptCommand]
    rcases hr : resolveShellSubstitution env exec t command cwd with ⟨s, oe⟩
    rw [hr] at h
    simp only at h
    subst h
    rfl

/-- Witness for C4: an unterminated dollar-paren input errors with the empty
string and the nil token list. -/
theorem resolveShellSubstitution_error_total_witness :
    (resolveShellSubstitution envW execW 1 (String.mk ['$', '(', 'x']) "w").1 = "" ∧
    tokenizePromptCommand envW execW 1 (String.mk ['$', '(', 'x']) "w"
      = (none, some .bracketParMatch) := by
  have hres : resolveShellSubstitution envW execW 1 (String.mk ['$', '(', 'x']) "w"
      = ("", some .bracketParMatch) := by
    rw [resolveShellSubstitution]
    exact resolveLoop_paren_mismatch envW execW 1 "w" ['x'] "" (by decide)
  exact resolveShellSubstitution_error_total envW execW 1 "w" (String.mk ['$', '(', 'x'])
    .bracketParMatch (by rw [hres])

/-- C5: a dollar-paren whose matching closing parenthesis is never found
(the bracket matcher returns the sequence length) makes `tokenizePromptCommand`
fail with the round-bracket-mismatch error; in particular
`tokenize_command("abcd $(xyz")` fails that way with no tokens. -/
theorem tokenizePromptCommand_roundBracketMismatch (env : String → Option String)
    (exec : Nat → String → String → ExecResult) (t : Nat) (cwd : String) :
    (∀ tail : List Char,
      findEndingParenthesis ('$' :: '(' :: tail) 1 '(' ')'
          = (('$' :: '(' :: tail).length : Int) →
        tokenizePromptCommand env exec t (String.mk ('$' :: '(' :: tail)) cwd
          = (none, some .bracketParMatch)) ∧
    tokenizePromptCommand env exec t "abcd $(xyz" cwd = (none, some .bracketParMatch) := by
  constructor
  · intro tail he
    have hres : resolveShellSubstitution env exec t (String.mk ('$' :: '(' :: tail)) cwd
        = ("", some .bracketParMatch) := by
      rw [resolveShellSubstitution]
      exact resolveLoop_paren_mismatch env exec t cwd tail "" he
    rw [tokenizePromptCommand, hres]
  · have hres : resolveShellSubstitution env exec t "abcd $(xyz" cwd
        = ("", some .bracketParMatch) := by
      rw [resolveShellSubstitution]
      show resolveLoop env exec t cwd
        ('a' :: 'b' :: 'c' :: 'd' :: ' ' :: '$' :: '(' :: 'x' :: 'y' :: 'z' :: []) "" = _
      rw [resolveLoop_copy env exec t cwd 'a' _ _ "" (by decide)]
      rw [resolveLoop_copy env exec t cwd 'b' _ _ _ (by decide)]
      rw [resolveLoop_copy env exec t cwd 'c' _ _ _ (by decide)]
      rw [resolveLoop_copy env exec t cwd 'd' _ _ _ (by decide)]
      rw [resolveLoop_copy env exec t cwd ' ' _ _ _ (by decide)]
      exact resolveLoop_paren_mismatch env exec t cwd ['x', 'y', 'z'] _ (by decide)
    rw [tokenizePromptCommand, hres]

/-- Witness for C5: the unterminated input from the test suite, on the
concrete witness collaborators. -/
theorem tokenizePromptCommand_roundBracketMismatch_witness :
    tokenizePromptCommand envW execW 1 (String.mk ['$', '(', 'x']) "w"
        = (none, some .bracketParMatch) ∧
    tokenizePromptCommand envW execW 1 "abcd $(xyz" "w" = (none, some .bracketParMatch) :=
  ⟨(tokenizePromptCommand_roundBracketMismatch envW execW 1 "w").1 ['x'] (by decide),
    (tokenizePromptCommand_roundBracketMismatch envW execW 1 "w").2⟩

/-- C6: a dollar-paren span whose subprocess does not complete within the
timeout (the executor reports the `-1` sentinel with the deadline-exceeded
cause) yields an empty result string together with the substitution error
carrying the deadline-exceeded cause — any output collected by the executor
is discarded — and that error differs from a launch-failure error, which
carries a different cause. -/
theorem resolveShellSubstitution_subshell_timeout (env : String → Option String)
    (exec : Nat → String → String → ExecResult) (t : Nat) (cwd : String)
    (sub rest : List Char) (hsub : ∀ c ∈ sub, c ≠ '(' ∧ c ≠ ')') (out : String)
    (hexec : exec t cwd (String.mk sub) = ⟨-1, out, some .deadlineExceeded⟩) :
    resolveShellSubstitution env exec t
        (String.mk ('$' :: '(' :: (sub ++ ')' :: rest))) cwd
      = ("", some (.shellExec (String.mk sub) (some .deadlineExceeded))) ∧
    (∀ msg : String,
      ResolveError.shellExec (String.mk sub) (some .deadlineExceeded)
        ≠ .shellExec (String.mk sub) (some (.other msg))) := by
  constructor
  · obtain ⟨he1, he2, hvar, _⟩ := claim_subshell_span sub rest hsub
    rw [resolveShellSubstitution]
    show resolveLoop env exec t cwd ('$' :: '(' :: (sub ++ ')' :: rest)) "" = _
    rw [resolveLoop_paren_launchFail env exec t cwd _ "" he1 he2 (by rw [hvar, hexec])]
    rw [hvar, hexec]
  · intro msg hcontra
    simp at hcontra

/-- Witness for C6: the timing-out command `s` produces the empty string and
the deadline-exceeded substitution error. -/
theorem resolveShellSubstitution_subshell_timeout_witness :
    resolveShellSubstitution envW execW 1 (String.mk ['$', '(', 's', ')']) "w"
      = ("", some (.shellExec (String.mk ['s']) (some .deadlineExceeded))) := by
  have h := (resolveShellSubstitution_subshell_timeout envW execW 1 "w" ['s'] []
    (by decide) "ignored" (by decide)).1
  rw [show String.mk ('$' :: '(' :: (['s'] ++ ')' :: []))
      = String.mk ['$', '(', 's', ')'] from rfl] at h
  exact h

/-- C7: a dollar not followed by an opening curly brace or parenthesis —
including a dollar that is the last character — is copied verbatim to the
output with no substitution attempted, the following character being
processed in its own turn; consequently `tokenize_command("abcd (xyz")`
succeeds with exactly the tokens `abcd` and `(xyz`. -/
theorem resolveShellSubstitution_dollar_literal (env : String → Option String)
    (exec : Nat → String → String → ExecResult) (t : Nat) (cwd : String) :
    (∀ (c : Char) (rest : List Char) (acc : String), c ≠ lbrace → c ≠ '(' →
      resolveLoop env exec t cwd ('$' :: c :: rest) acc
        = resolveLoop env exec t cwd (c :: rest) (acc.push '$')) ∧
    (∀ acc : String, resolveLoop env exec t cwd ['$'] acc = (acc.push '$', none)) ∧
    tokenizePromptCommand env exec t "abcd (xyz" cwd = (some ["abcd", "(xyz"], none) := by
  refine ⟨fun c rest acc h1 h2 => resolveLoop_dollar_other env exec t cwd c rest acc h1 h2,
    fun acc => resolveLoop_one env exec t cwd '$' acc, ?_⟩
  have hres : resolveShellSubstitution env exec t "abcd (xyz" cwd = ("abcd (xyz", none) := by
    rw [resolveShellSubstitution]
    rw [resolveLoop_noDollar env exec t cwd ("abcd (xyz".data.length) _ le_rfl (by decide) ""]
    rw [String.empty_append]
  rw [tokenizePromptCommand, hres]
  decide

/-- Witness for C7: a lone trailing dollar and a dollar before a plain
character are copied verbatim; the bare-parenthesis command tokenizes to two
tokens. -/
theorem resolveShellSubstitution_dollar_literal_witness :
    resolveLoop envW execW 1 "w" ['$', 'x'] "a"
        = resolveLoop envW execW 1 "w" ['x'] (String.push "a" '$') ∧
    resolveLoop envW execW 1 "w" ['$'] "a" = (String.push "a" '$', none) ∧
    tokenizePromptCommand envW execW 1 "abcd (xyz" "w" = (some ["abcd", "(xyz"], none) :=
  ⟨(resolveShellSubstitution_dollar_literal envW execW 1 "w").1 'x' [] "a"
      (by decide) (by decide),
    (resolveShellSubstitution_dollar_literal envW execW 1 "w").2.1 "a",
    (resolveShellSubstitution_dollar_literal envW execW 1 "w").2.2⟩

theorem tokWQ_bare_dquote (b : Bool) (cur : String) (acc : List String) (cs : List Char) :
    tokenizeQuotesLoop .bare b cur acc (dquote :: cs)
      = tokenizeQuotesLoop .double true cur acc cs := by
  rw [tokenizeQuotesLoop.eq_def]
  dsimp only
  rw [if_neg (show ¬ (isSpaceGo dquote = true) by decide),
    if_neg (show ¬ (dquote = squote) by decide), if_pos rfl]

theorem tokWQ_bare_plain (b : Bool) (cur : String) (acc : List String) (c : Char)
    (cs : List Char) (hs : isSpaceGo c = false) (h1 : c ≠ squote) (h2 : c ≠ dquote)
    (h3 : c ≠ bslash) :
    tokenizeQuotesLoop .bare b cur acc (c :: cs)
      = tokenizeQuotesLoop .bare true (cur.push c) acc cs := by
  rw [tokenizeQuotesLoop.eq_def]
  dsimp only
  rw [if_neg (by rw [hs]; simp), if_neg h1, if_neg h2, if_neg h3]

theorem tokWQ_double_run :
    ∀ (s : List Char), (∀ c ∈ s, c ≠ dquote ∧ c ≠ bslash) →
      ∀ (rest : List Char) (cur : String) (acc : List String),
        tokenizeQuotesLoop .double true cur acc (s ++ dquote :: rest)
          = tokenizeQuotesLoop .bare false "" (acc ++ [cur ++ String.mk s]) rest := by
  intro s
  induction s with
  | nil =>
    intro _ rest cur acc
    rw [List.nil_append]
    rw [tokenizeQuotesLoop.eq_def]
    dsimp only
    rw [if_pos rfl, show cur ++ String.mk [] = cur from String.append_empty cur]
  | cons c cs ih =>
    intro hplain rest cur acc
    have hc1 : c ≠ dquote := (hplain c (by simp)).1
    have hc2 : c ≠ bslash := (hplain c (by simp)).2
    rw [List.cons_append]
    rw [tokenizeQuotesLoop.eq_def]
    dsimp only
    rw [if_neg hc1, if_neg hc2]
    rw [ih (fun x hx => hplain x (by simp [hx])) rest (cur.push c) acc]
    rw [string_push_cons]

theorem tokWQ_bare_run :
    ∀ (s : List Char),
      (∀ c ∈ s, isSpaceGo c = false ∧ c ≠ squote ∧ c ≠ dquote ∧ c ≠ bslash) →
      ∀ (cur : String) (acc : List String),
        tokenizeQuotesLoop .bare true cur acc s
          = (some (acc ++ [cur ++ String.mk s]), none) := by
  intro s
  induction s with
  | nil =>
    intro _ cur acc
    rw [tokenizeQuotesLoop.eq_def]
    dsimp only
    rw [show cur ++ String.mk [] = cur from String.append_empty cur]
    simp
  | cons c cs ih =>
    intro hplain cur acc
    obtain ⟨hs, h1, h2, h3⟩ := hplain c (by simp)
    rw [tokWQ_bare_plain true cur acc c cs hs h1 h2 h3]
    rw [ih (fun x hx => hplain x (by simp [hx])) (cur.push c) acc]
    rw [string_push_cons]

/-- C8: closing a quoted segment completes its token and never merges it with
what follows: a double-quoted run immediately followed by another
double-quoted run yields two separate tokens, a double-quoted run
immediately followed by a bare run yields two separate tokens, and an empty
quoted pair (double or single) yields one token holding the empty string. -/
theorem tokenizeWithQuotes_no_merge :
    (∀ s t : List Char,
      (∀ c ∈ s, c ≠ dquote ∧ c ≠ bslash) → (∀ c ∈ t, c ≠ dquote ∧ c ≠ bslash) →
      tokenizeWithQuotes (String.mk
          (dquote :: (s ++ (dquote :: (dquote :: (t ++ [dquote]))))))
        = (some [String.mk s, String.mk t], none)) ∧
    (∀ s t : List Char,
      (∀ c ∈ s, c ≠ dquote ∧ c ≠ bslash) →
      (∀ c ∈ t, isSpaceGo c = false ∧ c ≠ squote ∧ c ≠ dquote ∧ c ≠ bslash) →
      t ≠ [] →
      tokenizeWithQuotes (String.mk (dquote :: (s ++ (dquote :: t))))
        = (some [String.mk s, String.mk t], none)) ∧
    tokenizeWithQuotes (String.mk [dquote, dquote]) = (some [""], none) ∧
    tokenizeWithQuotes (String.mk [squote, squote]) = (some [""], none) := by
  refine ⟨?_, ?_, by decide, by decide⟩
  · intro s t hs ht
    rw [tokenizeWithQuotes]
    show tokenizeQuotesLoop .bare false "" []
      (dquote :: (s ++ (dquote :: (dquote :: (t ++ [dquote]))))) = _
    rw [tokWQ_bare_dquote]
    rw [tokWQ_double_run s hs (dquote :: (t ++ [dquote])) "" []]
    rw [List.nil_append, String.empty_append, tokWQ_bare_dquote]
    rw [tokWQ_double_run t ht [] "" [String.mk s]]
    rw [String.empty_append]
    rfl
  · intro s t hs ht ht0
    rw [tokenizeWithQuotes]
    show tokenizeQuotesLoop .bare false "" [] (dquote :: (s ++ (dquote :: t))) = _
    rw [tokWQ_bare_dquote]
    rw [tokWQ_double_run s hs t "" []]
    rw [List.nil_append, String.empty_append]
    match t, ht0 with
    | c :: cs, _ =>
      obtain ⟨hsp, h1, h2, h3⟩ := ht c (by simp)
      rw [tokWQ_bare_plain false "" [String.mk s] c cs hsp h1 h2 h3]
      rw [tokWQ_bare_run cs (fun x hx => ht x (by simp [hx])) (String.push "" c) [String.mk s]]
      rw [string_push_cons, String.empty_append]
      rfl

/-- Witness for C8: two back-to-back double-quoted groups tokenize to two
separate tokens. -/
theorem tokenizeWithQuotes_no_merge_witness :
    tokenizeWithQuotes (String.mk (dquote :: (['h', 'e', 'l', 'l', 'o']
        ++ (dquote :: (dquote :: (['w', 'o', 'r', 'l', 'd'] ++ [dquote]))))))
      = (some [String.mk ['h', 'e', 'l', 'l', 'o'], String.mk ['w', 'o', 'r', 'l', 'd']],
          none) :=
  tokenizeWithQuotes_no_merge.1 ['h', 'e', 'l', 'l', 'o'] ['w', 'o', 'r', 'l', 'd']
    (by decide) (by decide)

/-- Invariant of the `strings.Fields` fold: the open run holds no whitespace
character, and every completed field is nonempty and holds no whitespace
character. -/
theorem fieldsCore_spec (l : List Char) :
    (∀ c ∈ (fieldsCore l).1, isSpaceGo c = false) ∧
    (∀ tok ∈ (fieldsCore l).2, tok.data ≠ [] ∧ ∀ c ∈ tok.data, isSpaceGo c = false) := by
  induction l with
  | nil => simp [fieldsCore]
  | cons x xs ih =>
    obtain ⟨ih1, ih2⟩ := ih
    have hstep : fieldsCore (x :: xs)
        = if isSpaceGo x then
            (match fieldsCore xs with
              | ([], toks) => ([], toks)
              | (cur, toks) => ([], String.mk cur :: toks))
          else (x :: (fieldsCore xs).1, (fieldsCore xs).2) := rfl
    rcases hf : fieldsCore xs with ⟨cur, toks⟩
    rw [hf] at hstep ih1 ih2
    by_cases hx : isSpaceGo x
    · rw [hstep, if_pos hx]
      cases cur with
      | nil => exact ⟨by simp, by simpa using ih2⟩
      | cons c cs =>
        refine ⟨by simp, ?_⟩
        intro tok htok
        rcases List.mem_cons.mp htok with heq | hmem
        · subst heq
          exact ⟨by simp, ih1⟩
        · exact ih2 tok hmem
    · rw [hstep, if_neg hx]
      refine ⟨?_, ih2⟩
      intro c hc
      rcases List.mem_cons.mp hc with heq | hmem
      · subst heq
        simpa using hx
      · exact ih1 c hmem

/-- Every token produced by `fields` is nonempty and contains no whitespace
character. -/
theorem fields_spec (s : String) :
    ∀ tok ∈ fields s, tok ≠ "" ∧ ∀ c ∈ tok.data, isSpaceGo c = false := by
  obtain ⟨h1, h2⟩ := fieldsCore_spec s.data
  intro tok htok
  rw [fields] at htok
  rcases hf : fieldsCore s.data with ⟨cur, toks⟩
  rw [hf] at htok h1 h2
  have hne : ∀ t : String, t.data ≠ [] → t ≠ "" := by
    intro t ht heq
    apply ht
    rw [heq]
  cases cur with
  | nil =>
    simp only at htok
    obtain ⟨hd, hc⟩ := h2 tok htok
    exact ⟨hne tok hd, hc⟩
  | cons c cs =>
    simp only at htok
    rcases List.mem_cons.mp htok with heq | hmem
    · subst heq
      exact ⟨hne _ (by simp), h1⟩
    · obtain ⟨hd, hc⟩ := h2 tok hmem
      exact ⟨hne tok hd, hc⟩

/-- C10: on every success of `tokenizePromptCommand`, each returned token is
nonempty and contains no whitespace character, because the resolved string is
split with a plain whitespace split; in particular an empty-string token can
never appear in the pipeline's output. -/
theorem tokenizePromptCommand_tokens_solid (env : String → Option String)
    (exec : Nat → String → String → ExecResult) (t : Nat) (cwd : String)
    (command : String) (toks : List String)
    (h : tokenizePromptCommand env exec t command cwd = (some toks, none)) :
    ∀ tok ∈ toks, tok ≠ "" ∧ ∀ c ∈ tok.data, isSpaceGo c = false := by
  rw [tokenizePromptCommand] at h
  rcases hr : resolveShellSubstitution env exec t command cwd with ⟨s, oe⟩
  rw [hr] at h
  cases oe with
  | some e => simp at h
  | none =>
    simp only at h
    have htoks : toks = fields s := by
      have := congrArg Prod.fst h
      simpa using this.symm
    rw [htoks]
    exact fields_spec s

/-- Witness for C10: the single token of the successfully tokenized command
`a` is nonempty and whitespace-free. -/
theorem tokenizePromptCommand_tokens_solid_witness :
    ("a" : String) ≠ "" ∧ ∀ c ∈ ("a" : String).data, isSpaceGo c = false := by
  have hres : resolveShellSubstitution envW execW 1 "a" "w" = ("a", none) := by
    rw [resolveShellSubstitution]
    exact resolveLoop_one envW execW 1 "w" 'a' ""
  have h : tokenizePromptCommand envW execW 1 "a" "w" = (some ["a"], none) := by
    rw [tokenizePromptCommand, hres]
    decide
  exact tokenizePromptCommand_tokens_solid envW execW 1 "w" "a" ["a"] h "a" (by simp)
